import Mathlib

/-!
Verification of the command-line classifier and cache lookup of the
`java` Go package (file `java.go`).

The embedding is shallow: Go strings are Lean `String`s, Go slices are
Lean `List`s, and the single `for` loop of `ParseCmd` becomes the
structurally recursive function `parseLoop` over the remaining tokens,
threading the `Cmd` record exactly as the Go loop threads `c`.
Go uses the empty string as the "unset" sentinel for `Cmd.Name`, so the
embedding does the same.
-/

namespace Java

/-- Translated from `Cmd` in `java.go`: a java command line with options
preceding the named class/jar/java file, arguments after. -/
structure Cmd where
  Name : String
  Options : List String
  Args : List String
deriving Repr, DecidableEq

/-- Models `strings.HasPrefix(s, "-")` from the Go standard library, as
used by `ParseCmd`: a UTF-8 string starts with the byte `'-'` exactly
when its first character is `'-'`. -/
def isFlag (s : String) : Bool :=
  match s.data with
  | [] => false
  | c :: _ => c = '-'

/-- The loop body of `ParseCmd` (`java.go` lines 96-108), one token at a
time.  Mirrors the Go control flow: a non-dashed token while `Name` is
still empty is assigned to `Name` (`continue`); otherwise the token goes
to `Options` when `Name` is still empty and to `Args` when it is set. -/
def parseLoop : Cmd → List String → Cmd
  | c, [] => c
  | c, it :: rest =>
    if isFlag it = false ∧ c.Name = "" then
      parseLoop { c with Name := it } rest
    else if c.Name = "" then
      parseLoop { c with Options := c.Options ++ [it] } rest
    else
      parseLoop { c with Args := c.Args ++ [it] } rest

/-- Translated from `ParseCmd` in `java.go`: start from a fresh zero
`Cmd` (Go `new(Cmd)`) and fold the loop over the input tokens. -/
def ParseCmd (cmd : List String) : Cmd := parseLoop ⟨"", [], []⟩ cmd

/-- Translated from `Cached` in `java.go`: join the cache directory with
the file name and return the joined path when a filesystem entry exists
there, the empty string otherwise.  `filepath.Join` and `fs.Exists` are
external-library effects, so they are passed in as parameters `J` and
`Ex`. -/
def Cached (J : String → String → String) (Ex : String → Bool)
    (CacheDir file : String) : String :=
  let path := J CacheDir file
  if Ex path then path else ""

/-- A token that the Go loop skips over while `Name` is unset without
making `Name` observably set: either a dashed token (sent to `Options`)
or the empty string (assigned to `Name`, which keeps `Name` equal to the
unset sentinel `""`). -/
def skipTok (s : String) : Bool := isFlag s || s == ""

/-- Closed-form characterisation of `ParseCmd`, used as a proof device:
split the input at the first token that is neither dashed nor empty;
that token is the name, the dashed tokens before it are the options, and
everything after it is the arguments. -/
def parseSpec (cmd : List String) : Cmd :=
  match cmd.dropWhile skipTok with
  | [] => ⟨"", (cmd.takeWhile skipTok).filter isFlag, []⟩
  | t :: post => ⟨t, (cmd.takeWhile skipTok).filter isFlag, post⟩

/-- Fuel-indexed variant of `parseLoop`, used to express termination:
`none` means the fuel ran out before the loop finished. -/
def parseLoopF : Nat → Cmd → List String → Option Cmd
  | _, c, [] => some c
  | 0, _, _ :: _ => none
  | fuel + 1, c, it :: rest =>
    if isFlag it = false ∧ c.Name = "" then
      parseLoopF fuel { c with Name := it } rest
    else if c.Name = "" then
      parseLoopF fuel { c with Options := c.Options ++ [it] } rest
    else
      parseLoopF fuel { c with Args := c.Args ++ [it] } rest

/- Sanity checks: the concrete scenarios of spec section 8. -/

example : ParseCmd ["-Dfoo=bar", "HelloClass", "some", "args", "here"] =
    ⟨"HelloClass", ["-Dfoo=bar"], ["some", "args", "here"]⟩ := by decide

example : ParseCmd [] = ⟨"", [], []⟩ := by decide

example : ParseCmd ["-x", "-y"] = ⟨"", ["-x", "-y"], []⟩ := by decide

example : ParseCmd ["Target", "-after"] = ⟨"Target", [], ["-after"]⟩ := by decide

/-! ### Helper lemmas -/

theorem parseLoop_of_name_set (rest : List String) (c : Cmd) (h : c.Name ≠ "") :
    parseLoop c rest = { c with Args := c.Args ++ rest } := by
  induction rest generalizing c with
  | nil => simp [parseLoop]
  | cons it rest ih =>
    simp only [parseLoop, h, and_false, if_false, if_neg h]
    rw [ih { c with Args := c.Args ++ [it] } h]
    simp

theorem parseLoop_eq_parseSpec (cmd opts : List String) :
    parseLoop ⟨"", opts, []⟩ cmd =
      { parseSpec cmd with Options := opts ++ (parseSpec cmd).Options } := by
  induction cmd generalizing opts with
  | nil => simp [parseLoop, parseSpec]
  | cons it rest ih =>
    by_cases hf : isFlag it = true
    · have hskip : skipTok it = true := by simp [skipTok, hf]
      have hcond : ¬ (isFlag it = false ∧ ("" : String) = "") := by simp [hf]
      simp only [parseLoop, if_neg hcond, if_pos rfl]
      rw [ih (opts ++ [it])]
      simp [parseSpec, List.dropWhile, List.takeWhile, hskip, List.filter, hf]
      cases hres : rest.dropWhile skipTok <;> simp [List.append_assoc]
    · have hf' : isFlag it = false := by revert hf; cases isFlag it <;> simp
      by_cases he : it = ""
      · subst he
        have hskip : skipTok "" = true := by decide
        have hflag : isFlag "" = false := by decide
        have hstep : parseLoop ⟨"", opts, []⟩ ("" :: rest) =
            parseLoop ⟨"", opts, []⟩ rest := by
          simp [parseLoop, hflag]
        rw [hstep, ih opts]
        simp [parseSpec, List.dropWhile, List.takeWhile, hskip, List.filter, hflag]
      · have hskip : skipTok it = false := by simp [skipTok, hf', he]
        have hstep : parseLoop ⟨"", opts, []⟩ (it :: rest) =
            parseLoop ⟨it, opts, []⟩ rest := by
          simp [parseLoop, hf']
        rw [hstep, parseLoop_of_name_set rest ⟨it, opts, []⟩ he]
        simp [parseSpec, List.dropWhile, hskip]

theorem ParseCmd_eq_parseSpec (cmd : List String) : ParseCmd cmd = parseSpec cmd := by
  have h := parseLoop_eq_parseSpec cmd []
  simpa [ParseCmd] using h

theorem dropWhile_head_false {α : Type} (p : α → Bool) (l : List α) (t : α)
    (post : List α) (h : l.dropWhile p = t :: post) : p t = false := by
  induction l with
  | nil => simp [List.dropWhile] at h
  | cons a l ih =>
    by_cases hp : p a = true
    · exact ih (by simpa [List.dropWhile, hp] using h)
    · have hp' : p a = false := by revert hp; cases p a <;> simp
      simp [List.dropWhile, hp'] at h
      rw [← h.1]
      exact hp'

theorem dropWhile_append_cons {α : Type} (p : α → Bool) (l r : List α) (t : α)
    (post : List α) (h : l.dropWhile p = t :: post) :
    (l ++ r).dropWhile p = t :: (post ++ r) := by
  induction l with
  | nil => simp [List.dropWhile] at h
  | cons a l ih =>
    by_cases hp : p a = true
    · have h' : l.dropWhile p = t :: post := by simpa [List.dropWhile, hp] using h
      simpa [List.dropWhile, hp] using ih h'
    · have hp' : p a = false := by revert hp; cases p a <;> simp
      simp [List.dropWhile, hp'] at h ⊢
      exact ⟨h.1, by rw [h.2]⟩

theorem dropWhile_all_front {α : Type} (p : α → Bool) (pre : List α) (t : α)
    (post : List α) (hpre : ∀ u ∈ pre, p u = true) (ht : p t = false) :
    (pre ++ t :: post).dropWhile p = t :: post := by
  induction pre with
  | nil => simp [List.dropWhile, ht]
  | cons a l ih =>
    have ha : p a = true := hpre a (List.mem_cons_self a l)
    have hl : ∀ u ∈ l, p u = true := fun u hu => hpre u (List.mem_cons_of_mem a hu)
    simpa [List.dropWhile, ha] using ih hl

theorem takeWhile_filter_eq_self (cmd : List String) (h : ∀ t ∈ cmd, t ≠ "") :
    (cmd.takeWhile skipTok).filter isFlag = cmd.takeWhile skipTok := by
  apply List.filter_eq_self.mpr
  intro u hu
  have hskip : skipTok u = true := List.mem_takeWhile_imp hu
  have hmem : u ∈ cmd := (List.takeWhile_sublist skipTok).subset hu
  have hne : u ≠ "" := h u hmem
  simpa [skipTok, hne] using hskip

/-! ### Claims -/

/-- Claim C1, counterexample.  The claim says the token count is always
preserved across the three output groups of `ParseCmd`.  It is false for
the input `[""]`: the empty-string token does not begin with `"-"`, so
the loop assigns it to `Name`, but assigning `""` leaves `Name` equal to
the unset sentinel, and the token reaches no output group. -/
theorem parseCmd_count_claim_false :
    ¬ ((ParseCmd [""]).Options.length + (ParseCmd [""]).Args.length +
        (if (ParseCmd [""]).Name = "" then 0 else 1) =
      ([""] : List String).length) := by
  decide

/-- Claim C1, amended: for every input sequence in which no token is the
empty string, the input is exactly options, then the name (when set),
then the arguments — so every token lands in exactly one group and the
token count is preserved. -/
theorem parseCmd_partition (cmd : List String) (h : ∀ t ∈ cmd, t ≠ "") :
    cmd = (ParseCmd cmd).Options ++
        (if (ParseCmd cmd).Name = "" then [] else [(ParseCmd cmd).Name]) ++
        (ParseCmd cmd).Args ∧
      (ParseCmd cmd).Options.length + (ParseCmd cmd).Args.length +
        (if (ParseCmd cmd).Name = "" then 0 else 1) = cmd.length := by
  rw [ParseCmd_eq_parseSpec]
  have hsplit := List.takeWhile_append_dropWhile skipTok cmd
  have hfil := takeWhile_filter_eq_self cmd h
  cases hd : cmd.dropWhile skipTok with
  | nil =>
    rw [hd, List.append_nil] at hsplit
    rw [hsplit] at hfil
    refine ⟨?_, ?_⟩ <;> simp [parseSpec, hd, hsplit, hfil]
  | cons t post =>
    have htm : t ∈ cmd := (List.dropWhile_sublist skipTok).subset
      (by rw [hd]; exact List.mem_cons_self t post)
    have hne : t ≠ "" := h t htm
    rw [hd] at hsplit
    constructor
    · simp only [parseSpec, hd, hfil, if_neg hne]
      rw [List.append_assoc]
      simpa using hsplit.symm
    · have hlen := congrArg List.length hsplit
      simp only [List.length_append, List.length_cons] at hlen
      simp only [parseSpec, hd, hfil, if_neg hne]
      omega

/-- Witness for `parseCmd_partition` at the input `["-a", "x", "-b"]`. -/
theorem parseCmd_partition_witness :
    (∀ t ∈ (["-a", "x", "-b"] : List String), t ≠ "") ∧
      ((["-a", "x", "-b"] : List String) =
          (ParseCmd ["-a", "x", "-b"]).Options ++
            (if (ParseCmd ["-a", "x", "-b"]).Name = "" then []
             else [(ParseCmd ["-a", "x", "-b"]).Name]) ++
            (ParseCmd ["-a", "x", "-b"]).Args ∧
        (ParseCmd ["-a", "x", "-b"]).Options.length +
            (ParseCmd ["-a", "x", "-b"]).Args.length +
            (if (ParseCmd ["-a", "x", "-b"]).Name = "" then 0 else 1) =
          (["-a", "x", "-b"] : List String).length) :=
  ⟨by decide, parseCmd_partition ["-a", "x", "-b"] (by decide)⟩

/-- Claim C2, counterexample.  The claim says the first token that does
not begin with `"-"` becomes `Name` and every token after it is
appended to `Args`.  For the input `["", "x"]` the first such token is
`""`, yet the final `Name` is `"x"`, not `""`, and the token `"x"`
following it was not appended to `Args`. -/
theorem parseCmd_first_nonflag_claim_false :
    isFlag "" = false ∧ (ParseCmd ["", "x"]).Name ≠ "" ∧
      (ParseCmd ["", "x"]).Name = "x" ∧ (ParseCmd ["", "x"]).Args = [] := by
  decide

/-- Claim C2, amended: the first token that is non-empty and does not
begin with `"-"` becomes `Name`, and every token after that position is
appended to `Args`, even tokens beginning with `"-"`. -/
theorem parseCmd_first_usable_token (pre post : List String) (t : String)
    (hpre : ∀ u ∈ pre, isFlag u = true ∨ u = "")
    (hflag : isFlag t = false) (hne : t ≠ "") :
    (ParseCmd (pre ++ t :: post)).Name = t ∧
      (ParseCmd (pre ++ t :: post)).Args = post := by
  rw [ParseCmd_eq_parseSpec]
  have hpre2 : ∀ u ∈ pre, skipTok u = true := by
    intro u hu
    rcases hpre u hu with hf | he
    · simp [skipTok, hf]
    · simp [skipTok, he]
  have ht : skipTok t = false := by simp [skipTok, hflag, hne]
  have hd := dropWhile_all_front skipTok pre t post hpre2 ht
  simp [parseSpec, hd]

/-- Witness for `parseCmd_first_usable_token` at the input
`["-a", "x", "-b", "y"]`. -/
theorem parseCmd_first_usable_token_witness :
    (∀ u ∈ (["-a"] : List String), isFlag u = true ∨ u = "") ∧
      isFlag "x" = false ∧ ("x" : String) ≠ "" ∧
      ((ParseCmd (["-a"] ++ "x" :: ["-b", "y"])).Name = "x" ∧
        (ParseCmd (["-a"] ++ "x" :: ["-b", "y"])).Args = ["-b", "y"]) :=
  ⟨by decide, by decide, by decide,
    parseCmd_first_usable_token ["-a"] ["-b", "y"] "x" (by decide) (by decide)
      (by decide)⟩

/-- Claim C3: `Name` is assigned at most once — once it is set after some
prefix of the input, processing the remaining tokens never changes it. -/
theorem parseCmd_name_stable (l r : List String) (h : (ParseCmd l).Name ≠ "") :
    (ParseCmd (l ++ r)).Name = (ParseCmd l).Name := by
  rw [ParseCmd_eq_parseSpec] at h ⊢
  rw [ParseCmd_eq_parseSpec]
  cases hd : l.dropWhile skipTok with
  | nil =>
    exfalso
    exact h (by simp [parseSpec, hd])
  | cons t post =>
    have hd2 := dropWhile_append_cons skipTok l r t post hd
    simp [parseSpec, hd, hd2]

/-- Witness for `parseCmd_name_stable` at `l = ["x"]`, `r = ["-y"]`. -/
theorem parseCmd_name_stable_witness :
    (ParseCmd ["x"]).Name ≠ "" ∧
      (ParseCmd (["x"] ++ ["-y"])).Name = (ParseCmd ["x"]).Name :=
  ⟨by decide, parseCmd_name_stable ["x"] ["-y"] (by decide)⟩

/-- Claim C4: the relative order of tokens within `Options` and within
`Args` is the order they had in the input — each of the two lists is a
subsequence of the input. -/
theorem parseCmd_order_preserved (cmd : List String) :
    List.Sublist (ParseCmd cmd).Options cmd ∧
      List.Sublist (ParseCmd cmd).Args cmd := by
  rw [ParseCmd_eq_parseSpec]
  have h1 : List.Sublist ((cmd.takeWhile skipTok).filter isFlag) cmd :=
    (List.filter_sublist _).trans (List.takeWhile_sublist skipTok)
  constructor
  · cases hd : cmd.dropWhile skipTok with
    | nil => simpa [parseSpec, hd] using h1
    | cons t post => simpa [parseSpec, hd] using h1
  · cases hd : cmd.dropWhile skipTok with
    | nil => simp [parseSpec, hd]
    | cons t post =>
      have h2 : List.Sublist (t :: post) cmd := by
        rw [← hd]
        exact List.dropWhile_sublist skipTok
      have h3 : List.Sublist post (t :: post) := List.sublist_cons_self t post
      simpa [parseSpec, hd] using h3.trans h2

/-- Claim C5: when every input token begins with `"-"` (in particular
for the empty input), the name stays unset, the arguments stay empty,
and all tokens land in `Options` in order. -/
theorem parseCmd_all_flags (cmd : List String) (h : ∀ t ∈ cmd, isFlag t = true) :
    (ParseCmd cmd).Name = "" ∧ (ParseCmd cmd).Args = [] ∧
      (ParseCmd cmd).Options = cmd := by
  rw [ParseCmd_eq_parseSpec]
  have hskip : ∀ t ∈ cmd, skipTok t = true := by
    intro t ht
    simp [skipTok, h t ht]
  have hd : cmd.dropWhile skipTok = [] := List.dropWhile_eq_nil_iff.mpr hskip
  have hsplit := List.takeWhile_append_dropWhile skipTok cmd
  rw [hd, List.append_nil] at hsplit
  have hfil : cmd.filter isFlag = cmd := List.filter_eq_self.mpr h
  simp [parseSpec, hd, hsplit, hfil]

/-- Witness for `parseCmd_all_flags` at the input `["-x", "-y"]`. -/
theorem parseCmd_all_flags_witness :
    (∀ t ∈ (["-x", "-y"] : List String), isFlag t = true) ∧
      ((ParseCmd ["-x", "-y"]).Name = "" ∧ (ParseCmd ["-x", "-y"]).Args = [] ∧
        (ParseCmd ["-x", "-y"]).Options = ["-x", "-y"]) :=
  ⟨by decide, parseCmd_all_flags ["-x", "-y"] (by decide)⟩

/-- Claim C6: `Cached` returns the joined path exactly when a filesystem
entry exists at that joined path, returns the empty string otherwise,
and never returns any other path — for every join function `J`, existence
test `Ex`, cache root and resource name. -/
theorem cached_join_or_empty (J : String → String → String) (Ex : String → Bool)
    (dir file : String) :
    (Ex (J dir file) = true → Cached J Ex dir file = J dir file) ∧
      (Ex (J dir file) = false → Cached J Ex dir file = "") ∧
      (Cached J Ex dir file = J dir file ∨ Cached J Ex dir file = "") := by
  cases hex : Ex (J dir file) with
  | true => simp [Cached, hex]
  | false => simp [Cached, hex]

/-- Witness for `cached_join_or_empty` with a concrete slash-join and an
existence test that accepts the joined path. -/
theorem cached_join_or_empty_witness :
    Cached (fun a b => a ++ "/" ++ b) (fun _ => true) "c" "f" = "c" ++ "/" ++ "f" :=
  (cached_join_or_empty (fun a b => a ++ "/" ++ b) (fun _ => true) "c" "f").1 rfl

/-- Claim C7: the resulting name is either unset or does not begin with
`"-"`, and the name is never an element of the options list. -/
theorem parseCmd_name_not_flag (cmd : List String) :
    ((ParseCmd cmd).Name = "" ∨ isFlag (ParseCmd cmd).Name = false) ∧
      (ParseCmd cmd).Name ∉ (ParseCmd cmd).Options := by
  rw [ParseCmd_eq_parseSpec]
  have hopts : ∀ u ∈ (cmd.takeWhile skipTok).filter isFlag, isFlag u = true :=
    fun u hu => (List.mem_filter.mp hu).2
  cases hd : cmd.dropWhile skipTok with
  | nil =>
    refine ⟨Or.inl (by simp [parseSpec, hd]), ?_⟩
    simp only [parseSpec, hd]
    intro hmem
    exact absurd (hopts _ hmem) (by decide)
  | cons t post =>
    have hts : skipTok t = false := dropWhile_head_false skipTok cmd t post hd
    have htf : isFlag t = false := by
      have hx := hts
      simp [skipTok] at hx
      exact hx.1
    refine ⟨Or.inr (by simp [parseSpec, hd, htf]), ?_⟩
    simp only [parseSpec, hd]
    intro hmem
    exact absurd (hopts _ hmem) (by simp [htf])

theorem parseLoopF_of_le (cmd : List String) :
    ∀ (fuel : Nat) (c : Cmd), cmd.length ≤ fuel →
      parseLoopF fuel c cmd = some (parseLoop c cmd) := by
  induction cmd with
  | nil =>
    intro fuel c _
    cases fuel <;> simp [parseLoopF, parseLoop]
  | cons it rest ih =>
    intro fuel c h
    cases fuel with
    | zero => simp at h
    | succ f =>
      have hf : rest.length ≤ f := by simpa using h
      by_cases h1 : isFlag it = false ∧ c.Name = ""
      · simp only [parseLoopF, parseLoop, if_pos h1]
        exact ih f _ hf
      · by_cases h2 : c.Name = ""
        · simp only [parseLoopF, parseLoop, if_neg h1, if_pos h2]
          exact ih f _ hf
        · simp only [parseLoopF, parseLoop, if_neg h1, if_neg h2]
          exact ih f _ hf

/-- Claim C8: `ParseCmd` is total — on every input (empty and all-flag
inputs included) the loop terminates within `cmd.length` steps, never
failing: the fuelled loop returns `some` result, namely the `ParseCmd`
value.  The Go loop body contains no failing operation, which the
embedding mirrors by returning `Cmd` rather than an error monad. -/
theorem parseCmd_total (cmd : List String) :
    parseLoopF cmd.length ⟨"", [], []⟩ cmd = some (ParseCmd cmd) :=
  parseLoopF_of_le cmd cmd.length ⟨"", [], []⟩ (Nat.le_refl _)

/-- Claim C9: `ParseCmd` is a deterministic function of its argument
alone — it is embedded as a pure function (the Go body reads no state
other than its parameter), so any two invocations on equal token
sequences return equal results. -/
theorem parseCmd_deterministic (a b : List String) (h : a = b) :
    ParseCmd a = ParseCmd b :=
  congrArg ParseCmd h

/-- Witness for `parseCmd_deterministic` at the input `["-a", "x"]`. -/
theorem parseCmd_deterministic_witness :
    (["-a", "x"] : List String) = ["-a", "x"] ∧
      ParseCmd ["-a", "x"] = ParseCmd ["-a", "x"] :=
  ⟨rfl, parseCmd_deterministic ["-a", "x"] ["-a", "x"] rfl⟩

/-- Claim C10: for every input sequence with no empty-string token, the
token count is preserved across the three groups, and the name is set
exactly when some input token does not begin with `"-"`. -/
theorem parseCmd_count_nonempty (cmd : List String) (h : ∀ t ∈ cmd, t ≠ "") :
    (ParseCmd cmd).Options.length + (ParseCmd cmd).Args.length +
        (if (ParseCmd cmd).Name = "" then 0 else 1) = cmd.length ∧
      ((ParseCmd cmd).Name ≠ "" ↔ ∃ t ∈ cmd, isFlag t = false) := by
  rw [ParseCmd_eq_parseSpec]
  have hsplit := List.takeWhile_append_dropWhile skipTok cmd
  have hfil := takeWhile_filter_eq_self cmd h
  cases hd : cmd.dropWhile skipTok with
  | nil =>
    rw [hd, List.append_nil] at hsplit
    rw [hsplit] at hfil
    have hall : ∀ t ∈ cmd, skipTok t = true := List.dropWhile_eq_nil_iff.mp hd
    have hallf : ∀ t ∈ cmd, isFlag t = true := by
      intro t htm
      have hs := hall t htm
      simpa [skipTok, h t htm] using hs
    constructor
    · simp [parseSpec, hd, hsplit, hfil]
    · simp only [parseSpec, hd]
      constructor
      · intro hn
        exact absurd rfl hn
      · rintro ⟨t, htm, htf⟩
        exact absurd (hallf t htm) (by simp [htf])
  | cons t post =>
    have htm : t ∈ cmd := (List.dropWhile_sublist skipTok).subset
      (by rw [hd]; exact List.mem_cons_self t post)
    have hne : t ≠ "" := h t htm
    have hts : skipTok t = false := dropWhile_head_false skipTok cmd t post hd
    have htf : isFlag t = false := by
      have hx := hts
      simp [skipTok] at hx
      exact hx.1
    rw [hd] at hsplit
    constructor
    · have hlen := congrArg List.length hsplit
      simp only [List.length_append, List.length_cons] at hlen
      simp only [parseSpec, hd, hfil, if_neg hne]
      omega
    · simp only [parseSpec, hd]
      constructor
      · intro _
        exact ⟨t, htm, htf⟩
      · intro _
        exact hne

/-- Witness for `parseCmd_count_nonempty` at the input `["-a", "x"]`. -/
theorem parseCmd_count_nonempty_witness :
    (∀ t ∈ (["-a", "x"] : List String), t ≠ "") ∧
      ((ParseCmd ["-a", "x"]).Options.length + (ParseCmd ["-a", "x"]).Args.length +
          (if (ParseCmd ["-a", "x"]).Name = "" then 0 else 1) =
        (["-a", "x"] : List String).length ∧
        ((ParseCmd ["-a", "x"]).Name ≠ "" ↔
          ∃ t ∈ (["-a", "x"] : List String), isFlag t = false)) :=
  ⟨by decide, parseCmd_count_nonempty ["-a", "x"] (by decide)⟩

end Java
